import Mathlib

/-!
# mbw: the timed worker, the run loop and the reporter

A shallow embedding of `src/mbw.c`.

* Memory is three disjoint byte arrays (the `a`, `b` and `c` of `main`), each a
  function from byte offsets to byte values; a pointer is an array together with
  a byte offset.
* The copy and fill kernels live in `util.h`, which is not part of the sources:
  a kernel is a parameter of `worker`, constrained by the contract of the
  specification where a theorem needs one.  `memcpy_wrapper` is in the sources
  and is embedded as is.
* Every call `worker` makes (to the kernel `f` or to `mempcpy`) is appended to a
  log, so that the number, order and arguments of the calls can be stated.
* Wall-clock time is not modelled: the elapsed time returned by each `worker`
  invocation is read from a parameter of the run loop.
* A finite `double` is the rational it stands for; the additions and the
  division of the run loop are rounded as IEEE 754 binary64 arithmetic rounds
  them (to nearest, ties to even).
* C integers are `Int`; the narrowing conversions that the program performs
  (`int64_t` to `int`, `int64_t` to `size_t`, `unsigned long` to `int`) are
  explicit.
-/

namespace Mbw

/-! ## Memory, pointers and machine integers -/

/-- The three arrays allocated by `main`: source `a`, destination `b`, staging `c`. -/
inductive BufId
  | a
  | b
  | c
  deriving DecidableEq, Repr

/-- A pointer: an array and a byte offset into it. -/
structure Ptr where
  buf : BufId
  off : Int
  deriving DecidableEq, Repr

/-- Pointer arithmetic on a `char *`: advance by `n` bytes. -/
def Ptr.add (p : Ptr) (n : Int) : Ptr := ⟨p.buf, p.off + n⟩

/-- Pointer arithmetic on an `int64_t *`: advance by `k` elements of 8 bytes. -/
def Ptr.add64 (p : Ptr) (k : Int) : Ptr := ⟨p.buf, p.off + 8 * k⟩

/-- Contents of the three arrays, byte by byte. -/
abbrev Mem := BufId → Int → Nat

/-- Conversion of an integer to `size_t` (64 bits, unsigned). -/
def to_size_t (x : Int) : Int := x % 2 ^ 64

/-- Conversion of an integer to `int` (32 bits, two's complement). -/
def to_int (x : Int) : Int := (x + 2 ^ 31) % 2 ^ 32 - 2 ^ 31

/-- Conversion of an integer to `int64_t` (64 bits, two's complement). -/
def to_int64 (x : Int) : Int := (x + 2 ^ 63) % 2 ^ 64 - 2 ^ 63

/-- The type `void (*f)(int64_t *, int64_t *, int)` of `bench_info`: destination,
source, byte count; the effect is on memory only. -/
abbrev Kernel := Ptr → Ptr → Int → Mem → Mem

/-- The library `memcpy(dst, src, n)` on non-overlapping ranges: the `n` bytes at
`dst` become the `n` bytes at `src`. -/
def memcpy (dst src : Ptr) (n : Int) (m : Mem) : Mem :=
  fun buf i =>
    if buf = dst.buf ∧ dst.off ≤ i ∧ i < dst.off + n then
      m src.buf (src.off + (i - dst.off))
    else m buf i

/-- A call made by `worker`, with its arguments as the callee receives them. -/
inductive Call
  | kernel (dst src : Ptr) (n : Int)
  | mempcpy (dst src : Ptr) (n : Int)
  deriving DecidableEq, Repr

/-- Machine state seen by `worker`: memory and the log of calls made so far. -/
structure State where
  mem : Mem
  calls : List Call

/-- `mempcpy` of mbw.c lines 73-75: `return memcpy(dst, src, n) + n;`. -/
def mempcpy (dst src : Ptr) (n : Int) (s : State) : Ptr × State :=
  (dst.add n, ⟨memcpy dst src n s.mem, s.calls ++ [Call.mempcpy dst src n]⟩)

/-- `memcpy_wrapper` of mbw.c lines 100-103; the `int` size is converted to the
`size_t` parameter of `memcpy`. -/
def memcpy_wrapper : Kernel :=
  fun dst src size m => memcpy dst src (to_size_t size) m

/-- An indirect call `f(dst, src, n)`; `n` is converted to the `int` parameter. -/
def call_kernel (f : Kernel) (dst src : Ptr) (n : Int) (s : State) : State :=
  ⟨f dst src (to_int n) s.mem, s.calls ++ [Call.kernel dst src (to_int n)]⟩

/-! ## The timed worker (mbw.c lines 130-165) -/

/-- The loop of lines 143-145:
`for (t=array_bytes; t >= block_size; t-=block_size, aa+=block_size) bb=mempcpy(bb, aa, block_size);`
started with the given `t`, `aa`, `bb`.  The result is the final `t`, `aa`, `bb`
and state; `none` when the fuel runs out first. -/
def cached_loop (block_size : Int) : Nat → Int → Ptr → Ptr → State → Option (Int × Ptr × Ptr × State)
  | 0, _, _, _, _ => none
  | fuel + 1, t, aa, bb, s =>
    if t ≥ block_size then
      let r := mempcpy bb aa (to_size_t block_size) s
      cached_loop block_size fuel (t - block_size) (aa.add block_size) r.1 r.2
    else some (t, aa, bb, s)

/-- The loop of lines 152-155:
`for(t = 0; t < array_bytes ; t += block_size) { f(c, a + t/long_size, block_size); f(b + t/long_size, c, block_size); }`
started with the given `t`; `none` when the fuel runs out first. -/
def staged_loop (f : Kernel) (a b c : Ptr) (array_bytes block_size : Int) : Nat → Int → State → Option State
  | 0, _, _ => none
  | fuel + 1, t, s =>
    if t < array_bytes then
      let s1 := call_kernel f c (a.add64 (Int.tdiv t 8)) block_size s
      let s2 := call_kernel f (b.add64 (Int.tdiv t 8)) c block_size s1
      staged_loop f a b c array_bytes block_size fuel (t + block_size) s2
    else some s

/-- The transfer performed by `worker` between the two `gettimeofday` calls.
`fuel` bounds the number of loop iterations; `none` means the fuel ran out.
The elapsed time that `worker` returns is not part of this model. -/
def worker (fuel : Nat) (asize : Int) (a b c : Ptr) (cached : Int) (block_size : Int)
    (use_tmpbuf : Int) (f : Kernel) (s : State) : Option State :=
  let long_size : Int := 8
  let array_bytes : Int := to_int64 (asize * long_size)
  let aa := a
  let bb := b
  if cached ≠ 0 then
    match cached_loop block_size fuel array_bytes aa bb s with
    | none => none
    | some (t, aa, bb, s1) =>
      if t ≠ 0 then some (mempcpy bb aa (to_size_t t) s1).2 else some s1
  else if use_tmpbuf ≠ 0 then
    staged_loop f a b c array_bytes block_size fuel 0 s
  else
    some (call_kernel f b a array_bytes s)

/-- The arrays as `main` passes them to `worker`. -/
def ptr_a : Ptr := ⟨BufId.a, 0⟩

/-- The destination array as `main` passes it to `worker`. -/
def ptr_b : Ptr := ⟨BufId.b, 0⟩

/-- The staging array as `main` passes it to `worker`. -/
def ptr_c : Ptr := ⟨BufId.c, 0⟩

/-- Sizes in bytes of the three arrays as `main` allocates them (lines 276-278):
`make_array(asize)` twice and `make_array(block_size)`, 8 bytes per element. -/
def sizes (asize block_size : Int) : BufId → Int
  | BufId.a => 8 * asize
  | BufId.b => 8 * asize
  | BufId.c => 8 * block_size

/-- The byte range `[p.off, p.off + n)` lies inside the array `p` points into. -/
def InBounds (sz : BufId → Int) (p : Ptr) (n : Int) : Prop :=
  0 ≤ p.off ∧ p.off + n ≤ sz p.buf

instance (sz : BufId → Int) (p : Ptr) (n : Int) : Decidable (InBounds sz p n) := by
  unfold InBounds; infer_instance

/-- Ranges touched by a call: destination and source both inside their arrays. -/
def Call.InBounds (sz : BufId → Int) : Call → Prop
  | Call.kernel dst src n => Mbw.InBounds sz dst n ∧ Mbw.InBounds sz src n
  | Call.mempcpy dst src n => Mbw.InBounds sz dst n ∧ Mbw.InBounds sz src n

instance (sz : BufId → Int) (cl : Call) : Decidable (Call.InBounds sz cl) := by
  cases cl <;> unfold Call.InBounds <;> infer_instance

/-! ## The kernel registry (mbw.c lines 105-122) -/

/-- The functions that `c_benchmarks` refers to.  All but `memcpy_wrapper` are
declared in `util.h`. -/
inductive KernelName
  | aligned_block_copy_backwards
  | aligned_block_copy_backwards_bs32
  | aligned_block_copy_backwards_bs64
  | aligned_block_copy
  | aligned_block_copy_pf32
  | aligned_block_copy_pf64
  | aligned_block_fill
  | aligned_block_fill_shuffle16
  | aligned_block_fill_shuffle32
  | aligned_block_fill_shuffle64
  | memcpy_wrapper
  | fill_write
  deriving DecidableEq, Repr

/-- The struct `bench_info` of lines 32-37. -/
structure bench_info where
  description : String
  use_tmpbuf : Int
  f : KernelName
  deriving DecidableEq, Repr

/-- The table `c_benchmarks` of lines 105-122. -/
def c_benchmarks : List bench_info :=
  [ ⟨"C copy backwards", 0, KernelName.aligned_block_copy_backwards⟩,
    ⟨"C copy backwards (32 byte blocks)", 0, KernelName.aligned_block_copy_backwards_bs32⟩,
    ⟨"C copy backwards (64 byte blocks)", 0, KernelName.aligned_block_copy_backwards_bs64⟩,
    ⟨"C copy", 0, KernelName.aligned_block_copy⟩,
    ⟨"C copy prefetched (32 bytes step)", 0, KernelName.aligned_block_copy_pf32⟩,
    ⟨"C copy prefetched (64 bytes step)", 0, KernelName.aligned_block_copy_pf64⟩,
    ⟨"C 2-pass copy", 1, KernelName.aligned_block_copy⟩,
    ⟨"C 2-pass copy prefetched (32 bytes step)", 1, KernelName.aligned_block_copy_pf32⟩,
    ⟨"C 2-pass copy prefetched (64 bytes step)", 1, KernelName.aligned_block_copy_pf64⟩,
    ⟨"C fill", 0, KernelName.aligned_block_fill⟩,
    ⟨"C fill (shuffle within 16 byte blocks)", 0, KernelName.aligned_block_fill_shuffle16⟩,
    ⟨"C fill (shuffle within 32 byte blocks)", 0, KernelName.aligned_block_fill_shuffle32⟩,
    ⟨"C fill (shuffle within 64 byte blocks)", 0, KernelName.aligned_block_fill_shuffle64⟩,
    ⟨"standard memcpy ", 0, KernelName.memcpy_wrapper⟩,
    ⟨"fill write ", 0, KernelName.fill_write⟩ ]

/-! ## The reporter (mbw.c lines 176-183) -/

/-- The value of a `double` division, with the operands taken as exact
rationals: a finite quotient, or what IEEE 754 gives for a zero divisor
(an infinity of the sign of the dividend, or NaN for `0/0`). -/
inductive fdouble
  | val (q : ℚ)
  | inf (negative : Bool)
  | nan
  deriving DecidableEq

/-- The `double` division `x / y`. -/
def fdiv (x y : ℚ) : fdouble :=
  if y = 0 then (if x = 0 then fdouble.nan else fdouble.inf (decide (x < 0)))
  else fdouble.val (x / y)

/-- The four fields that `printout` prints, in order. -/
structure Line where
  description : String
  elapsed : ℚ
  mib : ℚ
  copy : fdouble
  deriving DecidableEq

/-- `printout` of lines 176-183: prints the description, `te`, `mt` and `mt/te`. -/
def printout (te mt : ℚ) (_type : Int) (description : String) : Line :=
  ⟨description, te, mt, fdiv mt te⟩

/-! ## Arithmetic on `double` -/

/-- The number of halvings that bring `n` below 2, at most `fuel` of them. -/
def log2_fuel : Nat → Nat → Nat
  | 0, _ => 0
  | fuel + 1, n => if n < 2 then 0 else log2_fuel fuel (n / 2) + 1

/-- For `n >= 1`, the integer part of the binary logarithm of `n`. -/
def log2 (n : Nat) : Nat := log2_fuel n n

/-- For `n, d >= 1`, the integer part of the binary logarithm of `n / d`: the
difference `k` of the logarithms of `n` and `d`, or `k - 1` when `n / d < 2^k`. -/
def floor_log2 (n d : Nat) : Int :=
  let k : Int := (log2 n : Int) - (log2 d : Int)
  if 0 ≤ k then (if d * 2 ^ k.toNat ≤ n then k else k - 1)
  else (if d ≤ n * 2 ^ (-k).toNat then k else k - 1)

/-- The integer nearest to `N / D`, the even one of the two when `N / D` lies
half way. -/
def round_half_even (N D : Nat) : Nat :=
  let m := N / D
  let r := N % D
  if 2 * r < D then m else if D < 2 * r then m + 1 else if m % 2 = 0 then m else m + 1

/-- The exponent of the last place of the binary64 numbers around `n / d`:
53 significant bits, and never below `2^-1074` (the subnormal range). -/
def double_exponent (n d : Nat) : Int :=
  if floor_log2 n d < -1022 then -1022 - 52 else floor_log2 n d - 52

/-- The number of units in the last place of `n / d` rounded to binary64. -/
def double_significand (n d : Nat) : Nat :=
  let e := double_exponent n d
  if 0 ≤ e then round_half_even n (d * 2 ^ e.toNat) else round_half_even (n * 2 ^ (-e).toNat) d

/-- The `double` that an exact result `x` is rounded to by IEEE 754 binary64
arithmetic: the nearest multiple of the unit in the last place, ties to even.
Overflow to an infinity (beyond about `1.8e308`) is not modelled; the elapsed
times that `worker` returns are counts of microseconds divided by `1000000`, and
fewer than `2^31` of them are added. -/
def round_double (x : ℚ) : ℚ :=
  if x = 0 then 0
  else
    let n := x.num.natAbs
    let d := x.den
    let r : ℚ := (double_significand n d : ℚ) * (2 : ℚ) ^ double_exponent n d
    if x < 0 then -r else r

/-- The `double` addition `x + y` of two finite values. -/
def dadd (x y : ℚ) : ℚ := round_double (x + y)

/-- The `double` division `x / y` of two finite values, `y` not zero. -/
def ddiv (x y : ℚ) : ℚ := round_double (x / y)

/-- The `double` nearest to `7e-6`: what `worker` returns, `7.0/1000000`, when
the two `gettimeofday` readings are 7 microseconds apart. -/
def seven_microseconds : ℚ := 8264141345021879 / 1180591620717411303424

/-! ## main (mbw.c lines 187-307) -/

/-- What `main` does that is visible from outside, in order. -/
inductive Event
  | usage
  | printf (format : String) (args : List Int)
  | make_array (asize : Int)
  | worker (asize cached block_size use_tmpbuf : Int) (f : KernelName)
  | printout (line : Line)
  | free (p : BufId)
  deriving DecidableEq

/-- One option as `getopt` delivers it; a numeric argument is the value
returned by `strtoul` or `strtoull` (an `unsigned long`). -/
inductive Opt
  | h
  | a
  | c
  | n (v : Nat)
  | t (v : Nat)
  | b (v : Nat)
  | q
  | other

/-- The option variables of `main` (lines 199-209). -/
structure Settings where
  nr_loops : Int
  block_size : Int
  showavg : Int
  runid : Int
  quiet : Int
  cached : Int

/-- The initial values: `DEFAULT_NR_LOOPS`, `DEFAULT_BLOCK_SIZE`, `showavg=1`,
`runid=-1`, `quiet=0`, `cached=0`. -/
def Settings.init : Settings := ⟨10, 262144, 1, -1, 0, 0⟩

/-- `MAX_TESTS` of line 23. -/
def MAX_TESTS : Int := 4

/-- The `getopt` loop of lines 211-246.  The result is the settings, or the
output printed before `exit(1)`. -/
def parse_opts : List Opt → Settings → Except (List Event) Settings
  | [], st => Except.ok st
  | Opt.h :: _, _ => Except.error [Event.usage]
  | Opt.a :: rest, st =>
    parse_opts rest ⟨st.nr_loops, st.block_size, 0, st.runid, st.quiet, st.cached⟩
  | Opt.c :: rest, st =>
    parse_opts rest ⟨st.nr_loops, st.block_size, st.showavg, st.runid, st.quiet, 1⟩
  | Opt.n v :: rest, st =>
    parse_opts rest ⟨to_int v, st.block_size, st.showavg, st.runid, st.quiet, st.cached⟩
  | Opt.t v :: rest, st =>
    let runid := to_int v
    if 0 > runid then
      Except.error [Event.printf "Error: test number must be between 0 and %d" [MAX_TESTS]]
    else parse_opts rest ⟨st.nr_loops, st.block_size, st.showavg, runid, st.quiet, st.cached⟩
  | Opt.b v :: rest, st =>
    let block_size := to_int64 v
    if 0 ≥ block_size then
      Except.error [Event.printf "Error: what block size do you mean?" []]
    else parse_opts rest ⟨st.nr_loops, block_size, st.showavg, st.runid, st.quiet, st.cached⟩
  | Opt.q :: rest, st =>
    parse_opts rest ⟨st.nr_loops, st.block_size, st.showavg, st.runid, 1, st.cached⟩
  | Opt.other :: rest, st => parse_opts rest st

/-- The loop of lines 290-295 for one test, started at the given `i` and
`te_sum`: `for (i=0; nr_loops==0 || i<nr_loops; i++) { te=worker(...); te_sum+=te; }`.
`clock i` is the elapsed time that the `i`-th `worker` invocation returns, a
`double`, and `te_sum+=te` is a `double` addition.
The result is the final `te_sum` and the `worker` invocations made; `none` when
the fuel runs out first (as it does for `nr_loops == 0`). -/
def run_loop (clock : Int → ℚ) (nr_loops : Int) (call : Event) : Nat → Int → ℚ → Option (ℚ × List Event)
  | 0, _, _ => none
  | fuel + 1, i, te_sum =>
    if nr_loops = 0 ∨ i < nr_loops then
      let te := clock i
      match run_loop clock nr_loops call fuel (i + 1) (dadd te_sum te) with
      | none => none
      | some (sum, evs) => some (sum, call :: evs)
    else some (te_sum, [])

/-- The loop of lines 287-301 over the entries of the registry that are left,
`testno` being the index of the first of them.  `clock testno i` is the elapsed
time returned by invocation `i` of `worker` for test `testno`.  The quotient
`te_sum/nr_loops` is a `double` division, `nr_loops` being converted exactly. -/
def run_tests (fuel : Nat) (clock : Int → Int → ℚ) (st : Settings) (mt : ℚ) (asize : Int) :
    List bench_info → Int → Option (List Event)
  | [], _ => some []
  | bi :: rest, testno =>
    if st.runid < 0 ∨ st.runid = testno then
      match run_loop (clock testno) st.nr_loops
          (Event.worker asize st.cached st.block_size bi.use_tmpbuf bi.f) fuel 0 0 with
      | none => none
      | some (te_sum, calls) =>
        let avg :=
          if st.showavg ≠ 0 then
            [Event.printf "AVG" [], Event.printout (printout (ddiv te_sum st.nr_loops) mt testno bi.description)]
          else []
        (run_tests fuel clock st mt asize rest (testno + 1)).map (fun evs => calls ++ avg ++ evs)
    else run_tests fuel clock st mt asize rest (testno + 1)

/-- Exit status and output of a terminated run. -/
structure Outcome where
  status : Int
  events : List Event

/-- Lines 255-307 of `main`: the checks on the array size, the allocations and
the run loop, for parsed settings `st` and the array size `mt` in MiB.
`make_array` is taken to succeed.  The conversion of `1024*1024/long_size*mt`
from `double` to `int64_t` is taken to be exact. -/
def main_run (fuel : Nat) (clock : Int → Int → ℚ) (st : Settings) (mt : Nat) : Option Outcome :=
  if 0 ≥ mt then some ⟨1, [Event.printf "Error: array size wrong!" []]⟩
  else
    let long_size : Int := 8
    let asize : Int := 1024 * 1024 / long_size * mt
    if to_int64 (asize * long_size) < st.block_size then
      some ⟨1, [Event.printf "Error: array size larger than block size (%llu bytes)!" [st.block_size]]⟩
    else
      let banner :=
        if st.quiet = 0 then
          [Event.printf "int64_t uses %d bytes. " [long_size],
           Event.printf "Allocating 2*%lld elements = %lld bytes of memory." [asize, 2 * asize * long_size],
           Event.printf "Using %lld bytes as blocks for memcpy block copy test." [st.block_size]]
        else []
      let alloc := [Event.make_array asize, Event.make_array asize, Event.make_array st.block_size]
      let business :=
        if st.quiet = 0 then
          [Event.printf "Getting down to business... Doing %d runs per test." [st.nr_loops]]
        else []
      let runid_line := [Event.printf "runid :%d" [st.runid]]
      match run_tests fuel clock st mt asize c_benchmarks 0 with
      | none => none
      | some evs =>
        some ⟨0, banner ++ alloc ++ business ++ runid_line ++ evs
                  ++ [Event.free BufId.a, Event.free BufId.b, Event.free BufId.c]⟩

/-- The function `main`: `opts` are the options in command-line order, `arg` the
value of the first non-option argument when there is one. -/
def main (fuel : Nat) (clock : Int → Int → ℚ) (opts : List Opt) (arg : Option Nat) : Option Outcome :=
  match parse_opts opts Settings.init with
  | Except.error evs => some ⟨1, evs⟩
  | Except.ok st =>
    match arg with
    | none => some ⟨1, [Event.printf "Error: no array size given!" []]⟩
    | some mt => main_run fuel clock st mt

/-- A test memory: byte `i` of the source is `i + 1`, the destination and the
staging array hold the byte 170. -/
def mem0 : Mem
  | BufId.a, i => (i + 1).toNat
  | _, _ => 170

/-- Initial state over `mem0`, with an empty log. -/
def s0 : State := ⟨mem0, []⟩

/-- Whether a logged call is a call of the kernel `f`. -/
def Call.isKernel : Call → Bool
  | Call.kernel _ _ _ => true
  | Call.mempcpy _ _ _ => false

/-- The `mempcpy` calls of a run of `q` full blocks from offsets `oa`, `ob`. -/
def block_calls (bs oa ob : Int) (q : Nat) : List Call :=
  (List.range q).map
    (fun (k : Nat) => Call.mempcpy ⟨BufId.b, ob + (k : Int) * bs⟩ ⟨BufId.a, oa + (k : Int) * bs⟩ bs)

/-- The calls of cached mode on `array_bytes` bytes, as the specification lists
them: `array_bytes / block_size` copies of one block each, then one copy of the
`array_bytes % block_size` bytes that are left, when there are any. -/
def cached_calls (array_bytes block_size : Int) : List Call :=
  block_calls block_size 0 0 (array_bytes / block_size).toNat ++
    (if array_bytes % block_size = 0 then []
     else [Call.mempcpy ⟨BufId.b, array_bytes / block_size * block_size⟩
            ⟨BufId.a, array_bytes / block_size * block_size⟩ (array_bytes % block_size)])

/-! ## The kernel contract -/

/-- Modelled from the spec: the contract of a copy kernel (the kernels are in
`util.h`, not in the sources).  Called on disjoint arrays with a byte count `n`
that is a non-negative `int` and with both ranges inside their arrays,
`f(dst, src, n)` makes the first `n` bytes at `dst` equal to the first `n`
bytes at `src` and touches nothing else. -/
def CopyKernel (sz : BufId → Int) (f : Kernel) : Prop :=
  ∀ (dst src : Ptr) (n : Int) (m : Mem),
    dst.buf ≠ src.buf → 0 ≤ n → n < 2 ^ 31 → InBounds sz dst n → InBounds sz src n →
      (∀ i, 0 ≤ i → i < n → f dst src n m dst.buf (dst.off + i) = m src.buf (src.off + i))
      ∧ (∀ buf j, ¬ (buf = dst.buf ∧ dst.off ≤ j ∧ j < dst.off + n) → f dst src n m buf j = m buf j)

/-- Modelled from the spec: the contract of a fill kernel (the kernels are in
`util.h`, not in the sources).  Under the same conditions on the call,
`f(dst, src, n)` writes the fixed byte `pattern` to the first `n` bytes at `dst`,
whatever `src` holds, and touches nothing else. -/
def FillKernel (sz : BufId → Int) (pattern : Nat) (f : Kernel) : Prop :=
  ∀ (dst src : Ptr) (n : Int) (m : Mem),
    dst.buf ≠ src.buf → 0 ≤ n → n < 2 ^ 31 → InBounds sz dst n → InBounds sz src n →
      (∀ i, 0 ≤ i → i < n → f dst src n m dst.buf (dst.off + i) = pattern)
      ∧ (∀ buf j, ¬ (buf = dst.buf ∧ dst.off ≤ j ∧ j < dst.off + n) → f dst src n m buf j = m buf j)

/-- Modelled from the spec: a fill kernel (those of the registry are in `util.h`,
not in the sources), writing the byte `pattern` to the `n` bytes at `dst`
without reading `src`. -/
def fill_with (pattern : Nat) : Kernel :=
  fun dst _src n m buf i =>
    if buf = dst.buf ∧ dst.off ≤ i ∧ i < dst.off + n then pattern else m buf i

/-! ## Reading the output of the run loop -/

/-- The accumulator `te_sum` after the elapsed times of `k` successive
`worker` invocations, from invocation `i` on, have been added to it one by one. -/
def acc_clock (clock : Int → ℚ) : Nat → Int → ℚ → ℚ
  | 0, _, te_sum => te_sum
  | k + 1, i, te_sum => acc_clock clock k (i + 1) (dadd te_sum (clock i))

theorem to_size_t_eq (x : Int) (h0 : 0 ≤ x) (h : x < 2 ^ 63) : to_size_t x = x := by
  unfold to_size_t
  norm_num at h ⊢
  omega

theorem to_int_eq (x : Int) (h0 : -2 ^ 31 ≤ x) (h : x < 2 ^ 31) : to_int x = x := by
  unfold to_int
  norm_num at h0 h ⊢
  omega

theorem to_int64_eq (x : Int) (h0 : -2 ^ 63 ≤ x) (h : x < 2 ^ 63) : to_int64 x = x := by
  unfold to_int64
  norm_num at h0 h ⊢
  omega

/-! ## Cached mode -/

theorem block_calls_succ (bs oa ob : Int) (q : Nat) :
    block_calls bs oa ob (q + 1)
      = Call.mempcpy ⟨BufId.b, ob⟩ ⟨BufId.a, oa⟩ bs :: block_calls bs (oa + bs) (ob + bs) q := by
  unfold block_calls
  rw [List.range_succ_eq_map, List.map_cons, List.map_map]
  congr 1
  · simp
  · apply List.map_congr_left
    intro k _
    simp only [Function.comp, Nat.succ_eq_add_one, Nat.cast_add, Nat.cast_one]
    congr 2 <;> ring

/-- The loop of cached mode, run on `q` full blocks and a rest `r`: it returns,
with the rest in `t`, both pointers advanced by `q` blocks, the blocks copied
and nothing else changed. -/
theorem cached_loop_spec (bs : Int) (hbs : 1 ≤ bs) (hbs2 : bs < 2 ^ 63) (r : Int)
    (hr0 : 0 ≤ r) (hr : r < bs) :
    ∀ (q fuel : Nat) (oa ob : Int) (s : State), q < fuel →
      ∃ s1, cached_loop bs fuel (q * bs + r) ⟨BufId.a, oa⟩ ⟨BufId.b, ob⟩ s
          = some (r, ⟨BufId.a, oa + q * bs⟩, ⟨BufId.b, ob + q * bs⟩, s1)
        ∧ (∀ i, s1.mem BufId.a i = s.mem BufId.a i)
        ∧ (∀ i, s1.mem BufId.c i = s.mem BufId.c i)
        ∧ (∀ i, ob ≤ i → i < ob + q * bs → s1.mem BufId.b i = s.mem BufId.a (oa + (i - ob)))
        ∧ (∀ i, ¬ (ob ≤ i ∧ i < ob + q * bs) → s1.mem BufId.b i = s.mem BufId.b i)
        ∧ s1.calls = s.calls ++ block_calls bs oa ob q := by
  intro q
  induction q with
  | zero =>
    intro fuel oa ob s hf
    obtain ⟨fuel, rfl⟩ : ∃ k, fuel = k + 1 := ⟨fuel - 1, by omega⟩
    refine ⟨s, ?_, fun _ => rfl, fun _ => rfl, ?_, fun _ _ => rfl, ?_⟩
    · simp only [cached_loop, Nat.cast_zero, zero_mul, zero_add, add_zero]
      rw [if_neg (by omega)]
    · intro i h1 h2
      simp only [Nat.cast_zero, zero_mul, add_zero] at h2
      omega
    · simp [block_calls]
  | succ q ih =>
    intro fuel oa ob s hf
    obtain ⟨fuel, rfl⟩ : ∃ k, fuel = k + 1 := ⟨fuel - 1, by omega⟩
    have hq : (0 : Int) ≤ (q : Int) * bs := mul_nonneg (Int.ofNat_nonneg q) (by omega)
    have hcast : ((q + 1 : Nat) : Int) * bs = q * bs + bs := by push_cast; ring
    obtain ⟨s1, h1, ha, hc, hb, hb2, hcalls⟩ :=
      ih fuel (oa + bs) (ob + bs)
        ⟨memcpy ⟨BufId.b, ob⟩ ⟨BufId.a, oa⟩ bs s.mem,
          s.calls ++ [Call.mempcpy ⟨BufId.b, ob⟩ ⟨BufId.a, oa⟩ bs]⟩ (by omega)
    refine ⟨s1, ?_, ?_, ?_, ?_, ?_, ?_⟩
    · rw [hcast]
      simp only [cached_loop, mempcpy, Ptr.add, to_size_t_eq bs (by omega) hbs2]
      rw [if_pos (by omega)]
      have e1 : (q : Int) * bs + bs + r - bs = q * bs + r := by ring
      have e2 : oa + (q * bs + bs) = oa + bs + q * bs := by ring
      have e3 : ob + (q * bs + bs) = ob + bs + q * bs := by ring
      rw [e1, e2, e3]
      exact h1
    · intro i
      rw [ha i]
      simp [memcpy]
    · intro i
      rw [hc i]
      simp [memcpy]
    · intro i hi1 hi2
      rw [hcast] at hi2
      by_cases hlt : i < ob + bs
      · rw [hb2 i (by omega)]
        simp [memcpy, hi1, hlt]
      · rw [hb i (by omega) (by omega)]
        simp only [memcpy]
        rw [if_neg (by simp)]
        congr 1
        ring
    · intro i hi
      rw [hcast] at hi
      rw [hb2 i (by omega)]
      simp only [memcpy]
      rw [if_neg (by omega)]
    · rw [hcalls, block_calls_succ]
      simp

theorem block_calls_mem (bs oa ob : Int) (q : Nat) (cl : Call) (h : cl ∈ block_calls bs oa ob q) :
    ∃ k : Nat, k < q ∧
      cl = Call.mempcpy ⟨BufId.b, ob + (k : Int) * bs⟩ ⟨BufId.a, oa + (k : Int) * bs⟩ bs := by
  unfold block_calls at h
  rw [List.mem_map] at h
  obtain ⟨k, hk, rfl⟩ := h
  exact ⟨k, List.mem_range.mp hk, rfl⟩

/-- Cached mode, whole: the result of `worker` with `cached = 1`. -/
theorem worker_cached_spec (asize block_size use_tmpbuf : Int) (f : Kernel) (s : State)
    (fuel : Nat) (h0 : 0 ≤ asize) (h1 : asize < 2 ^ 60) (hbs : 1 ≤ block_size)
    (hbs2 : block_size < 2 ^ 63) (hfuel : (8 * asize / block_size).toNat < fuel) :
    ∃ s1, worker fuel asize ptr_a ptr_b ptr_c 1 block_size use_tmpbuf f s = some s1
      ∧ (∀ i, s1.mem BufId.a i = s.mem BufId.a i)
      ∧ (∀ i, s1.mem BufId.c i = s.mem BufId.c i)
      ∧ (∀ i, 0 ≤ i → i < 8 * asize → s1.mem BufId.b i = s.mem BufId.a i)
      ∧ (∀ i, ¬ (0 ≤ i ∧ i < 8 * asize) → s1.mem BufId.b i = s.mem BufId.b i)
      ∧ s1.calls = s.calls ++ cached_calls (8 * asize) block_size := by
  have hab : to_int64 (asize * 8) = 8 * asize := by
    rw [to_int64_eq _ (by norm_num at h1 ⊢; omega) (by norm_num at h1 ⊢; omega)]
    ring
  have hpos : (0 : Int) < block_size := by omega
  have hr0 : 0 ≤ 8 * asize % block_size := Int.emod_nonneg _ (by omega)
  have hr : 8 * asize % block_size < block_size := Int.emod_lt_of_pos _ hpos
  have hq0 : 0 ≤ 8 * asize / block_size := Int.ediv_nonneg (by omega) (by omega)
  have hqc : (((8 * asize / block_size).toNat : Nat) : Int) = 8 * asize / block_size :=
    Int.toNat_of_nonneg hq0
  have hdecomp : 8 * asize = 8 * asize / block_size * block_size + 8 * asize % block_size := by
    have := Int.ediv_add_emod (8 * asize) block_size
    rw [mul_comm] at this
    exact this.symm
  obtain ⟨s1, e1, ha, hc, hb, hb2, hcalls⟩ :=
    cached_loop_spec block_size hbs hbs2 (8 * asize % block_size) hr0 hr
      (8 * asize / block_size).toNat fuel 0 0 s hfuel
  rw [hqc, ← hdecomp] at e1
  simp only [zero_add] at e1 hb hb2
  rw [hqc] at hb hb2
  have hd0 : 0 ≤ 8 * asize / block_size * block_size := mul_nonneg hq0 (by omega)
  by_cases hz : 8 * asize % block_size = 0
  · refine ⟨s1, ?_, ha, hc, ?_, ?_, ?_⟩
    · simp only [worker, hab, ptr_a, ptr_b]
      rw [if_pos (by decide), e1]
      simp [hz]
    · intro i hi0 hi1
      rw [hb i hi0 (by omega)]
      simp
    · intro i hi
      exact hb2 i (by omega)
    · rw [hcalls]
      simp [cached_calls, hz]
  · refine ⟨(mempcpy ⟨BufId.b, 8 * asize / block_size * block_size⟩
        ⟨BufId.a, 8 * asize / block_size * block_size⟩ (8 * asize % block_size) s1).2,
        ?_, ?_, ?_, ?_, ?_, ?_⟩
    · simp only [worker, hab, ptr_a, ptr_b]
      rw [if_pos (by decide), e1]
      simp only [ne_eq, hz, not_false_eq_true, if_true]
      rw [to_size_t_eq _ hr0 (by omega)]
    · intro i
      simp only [mempcpy, memcpy]
      rw [if_neg (by simp)]
      exact ha i
    · intro i
      simp only [mempcpy, memcpy]
      rw [if_neg (by simp)]
      exact hc i
    · intro i hi0 hi1
      simp only [mempcpy, memcpy]
      by_cases hlt : i < 8 * asize / block_size * block_size
      · rw [if_neg (by simp; omega), hb i hi0 hlt]
        simp
      · rw [if_pos ⟨trivial, by omega, by omega⟩, ha]
        congr 1
        ring
    · intro i hi
      simp only [mempcpy, memcpy]
      rw [if_neg (by simp; omega)]
      exact hb2 i (by omega)
    · simp only [mempcpy]
      rw [hcalls]
      simp [cached_calls, hz]

/-! ## Kernels that meet the contract -/

theorem memcpy_wrapper_copy (sz : BufId → Int) : CopyKernel sz memcpy_wrapper := by
  intro dst src n m _ h0 h31 _ _
  have hn : to_size_t n = n := to_size_t_eq n h0 (by norm_num at h31 ⊢; omega)
  refine ⟨?_, ?_⟩
  · intro i hi0 hi
    simp only [memcpy_wrapper, memcpy, hn]
    rw [if_pos ⟨trivial, by omega, by omega⟩]
    congr 1
    ring
  · intro buf j hj
    simp only [memcpy_wrapper, memcpy, hn]
    rw [if_neg hj]

theorem fill_with_fill (sz : BufId → Int) (pattern : Nat) : FillKernel sz pattern (fill_with pattern) := by
  intro dst src n m _ _ _ _ _
  refine ⟨?_, ?_⟩
  · intro i hi0 hi
    simp only [fill_with]
    rw [if_pos ⟨trivial, by omega, by omega⟩]
  · intro buf j hj
    simp only [fill_with]
    rw [if_neg hj]

/-! ## Direct mode -/

/-- Direct mode with a copy kernel, on an array of less than `2^31` bytes: one
call, after which the destination holds the source. -/
theorem worker_direct_spec (asize block_size : Int) (f : Kernel) (s : State) (fuel : Nat)
    (h0 : 0 ≤ asize) (h31 : 8 * asize < 2 ^ 31) (hf : CopyKernel (sizes asize block_size) f) :
    ∃ s1, worker fuel asize ptr_a ptr_b ptr_c 0 block_size 0 f s = some s1
      ∧ (∀ i, 0 ≤ i → i < 8 * asize → s1.mem BufId.b i = s.mem BufId.a i)
      ∧ (∀ i, ¬ (0 ≤ i ∧ i < 8 * asize) → s1.mem BufId.b i = s.mem BufId.b i)
      ∧ s1.calls = s.calls ++ [Call.kernel ptr_b ptr_a (8 * asize)] := by
  have hab : to_int64 (asize * 8) = 8 * asize := by
    rw [to_int64_eq _ (by norm_num at h31 ⊢; omega) (by norm_num at h31 ⊢; omega)]
    ring
  have hn : to_int (8 * asize) = 8 * asize :=
    to_int_eq _ (by norm_num; omega) h31
  obtain ⟨hc1, hc2⟩ := hf ptr_b ptr_a (8 * asize) s.mem (by decide) (by omega) h31
    (by simp [InBounds, ptr_b, sizes]) (by simp [InBounds, ptr_a, sizes])
  refine ⟨call_kernel f ptr_b ptr_a (8 * asize) s, ?_, ?_, ?_, ?_⟩
  · simp [worker, hab]
  · intro i hi0 hi
    have := hc1 i hi0 hi
    simp only [ptr_a, ptr_b, zero_add] at this
    simpa [call_kernel, hn, ptr_a, ptr_b] using this
  · intro i hi
    have := hc2 BufId.b i (by simp [ptr_b]; omega)
    simpa [call_kernel, hn] using this
  · simp [call_kernel, hn]

/-! ## Staged mode -/

/-- The loop of staged mode with a copy kernel and a block size that is a
multiple of 8, run on the `q` blocks from `t` to the end of the array: it
returns, with those blocks copied and the rest of source and destination
unchanged. -/
theorem staged_loop_spec (asize bs : Int) (f : Kernel) (hf : CopyKernel (sizes asize bs) f)
    (h31 : 8 * asize < 2 ^ 31) (hbs : 0 < bs) (h8 : 8 ∣ bs) :
    ∀ (q fuel : Nat) (t : Int) (s : State), q < fuel → 0 ≤ t → 8 ∣ t → t + q * bs = 8 * asize →
      ∃ s1, staged_loop f ptr_a ptr_b ptr_c (8 * asize) bs fuel t s = some s1
        ∧ (∀ i, s1.mem BufId.a i = s.mem BufId.a i)
        ∧ (∀ i, t ≤ i → i < 8 * asize → s1.mem BufId.b i = s.mem BufId.a i)
        ∧ (∀ i, ¬ (t ≤ i ∧ i < 8 * asize) → s1.mem BufId.b i = s.mem BufId.b i) := by
  intro q
  induction q with
  | zero =>
    intro fuel t s hfuel _ _ ht
    obtain ⟨fuel, rfl⟩ : ∃ k, fuel = k + 1 := ⟨fuel - 1, by omega⟩
    simp only [Nat.cast_zero, zero_mul, add_zero] at ht
    refine ⟨s, ?_, fun _ => rfl, ?_, fun _ _ => rfl⟩
    · simp only [staged_loop]
      rw [if_neg (by omega)]
    · intro i h1 h2
      omega
  | succ q ih =>
    intro fuel t s hfuel ht0 ht8 ht
    obtain ⟨fuel, rfl⟩ : ∃ k, fuel = k + 1 := ⟨fuel - 1, by omega⟩
    have hq : (0 : Int) ≤ (q : Int) * bs := mul_nonneg (Int.ofNat_nonneg q) (by omega)
    have hcast : ((q + 1 : Nat) : Int) * bs = q * bs + bs := by push_cast; ring
    rw [hcast] at ht
    have hdiv : 8 * Int.tdiv t 8 = t := Int.mul_tdiv_cancel' ht8
    have hn : to_int bs = bs := to_int_eq bs (by norm_num; omega) (by omega)
    obtain ⟨c1, c2⟩ := hf ptr_c ⟨BufId.a, t⟩ bs s.mem (by simp [ptr_c]) (by omega) (by omega)
      (by simp [InBounds, ptr_c, sizes]; omega) (by simp [InBounds, sizes]; omega)
    obtain ⟨d1, d2⟩ := hf ⟨BufId.b, t⟩ ptr_c bs (f ptr_c ⟨BufId.a, t⟩ bs s.mem)
      (by simp [ptr_c]) (by omega) (by omega)
      (by simp [InBounds, sizes]; omega) (by simp [InBounds, ptr_c, sizes]; omega)
    obtain ⟨s1, e1, ha, hb, hb2⟩ := ih fuel (t + bs)
      (call_kernel f ⟨BufId.b, t⟩ ptr_c bs (call_kernel f ptr_c ⟨BufId.a, t⟩ bs s))
      (by omega) (by omega) (Dvd.dvd.add ht8 h8) (by omega)
    have hmem2 : ∀ buf j,
        (call_kernel f ⟨BufId.b, t⟩ ptr_c bs (call_kernel f ptr_c ⟨BufId.a, t⟩ bs s)).mem buf j
          = f ⟨BufId.b, t⟩ ptr_c bs (f ptr_c ⟨BufId.a, t⟩ bs s.mem) buf j := by
      intro buf j
      simp [call_kernel, hn]
    have hA : ∀ j, f ⟨BufId.b, t⟩ ptr_c bs (f ptr_c ⟨BufId.a, t⟩ bs s.mem) BufId.a j
        = s.mem BufId.a j := by
      intro j
      rw [d2 BufId.a j (by simp), c2 BufId.a j (by simp [ptr_c])]
    refine ⟨s1, ?_, ?_, ?_, ?_⟩
    · simp only [staged_loop]
      rw [if_pos (by omega)]
      simp only [Ptr.add64, ptr_a, ptr_b, hdiv, zero_add]
      exact e1
    · intro i
      rw [ha i, hmem2, hA]
    · intro i hi1 hi2
      by_cases hlt : i < t + bs
      · rw [hb2 i (by omega), hmem2]
        have h1 := d1 (i - t) (by omega) (by omega)
        have h2 := c1 (i - t) (by omega) (by omega)
        simp only [zero_add, show ptr_c.off = 0 from rfl, show ptr_c.buf = BufId.c from rfl]
          at h1 h2
        have e : t + (i - t) = i := by ring
        rw [e] at h1 h2
        rw [h1, h2]
      · rw [hb i (by omega) hi2, hmem2, hA]
    · intro i hi
      rw [hb2 i (by omega), hmem2]
      rw [d2 BufId.b i (by simp; omega), c2 BufId.b i (by simp [ptr_c])]

/-- Staged mode, whole, under the conditions of `staged_loop_spec` and with a
block size that divides the array size. -/
theorem worker_staged_spec (asize bs : Int) (f : Kernel) (s : State) (fuel : Nat)
    (h0 : 0 ≤ asize) (h31 : 8 * asize < 2 ^ 31) (hbs : 0 < bs) (h8 : 8 ∣ bs)
    (hdvd : bs ∣ 8 * asize) (hf : CopyKernel (sizes asize bs) f)
    (hfuel : (8 * asize / bs).toNat < fuel) :
    ∃ s1, worker fuel asize ptr_a ptr_b ptr_c 0 bs 1 f s = some s1
      ∧ (∀ i, 0 ≤ i → i < 8 * asize → s1.mem BufId.b i = s.mem BufId.a i)
      ∧ (∀ i, ¬ (0 ≤ i ∧ i < 8 * asize) → s1.mem BufId.b i = s.mem BufId.b i) := by
  have hab : to_int64 (asize * 8) = 8 * asize := by
    rw [to_int64_eq _ (by norm_num at h31 ⊢; omega) (by norm_num at h31 ⊢; omega)]
    ring
  have hq0 : 0 ≤ 8 * asize / bs := Int.ediv_nonneg (by omega) (by omega)
  have hqc : (((8 * asize / bs).toNat : Nat) : Int) = 8 * asize / bs := Int.toNat_of_nonneg hq0
  obtain ⟨s1, e1, _, hb, hb2⟩ := staged_loop_spec asize bs f hf h31 hbs h8
    (8 * asize / bs).toNat fuel 0 s hfuel (le_refl 0) (dvd_zero 8)
    (by rw [hqc, zero_add]; exact Int.ediv_mul_cancel hdvd)
  refine ⟨s1, ?_, hb, hb2⟩
  simp only [worker, hab]
  rw [if_neg (by decide), if_pos (by decide)]
  exact e1

/-- C1. Cached mode copies the whole array whatever the kernel and the
`use_tmpbuf` flag: for `0 <= asize` with `8*asize` in `int64_t` range and
`block_size >= 1`, `worker` with `cached = 1` returns (given fuel for the
`8*asize / block_size` iterations), the first `8*asize` bytes of `b` then equal
those of `a`, which is unchanged; the calls it has made are exactly
`8*asize / block_size` block-sized `mempcpy` calls at successive block offsets
followed by one `mempcpy` of the `8*asize % block_size` bytes left when that is
not zero; all of them stay inside the arrays and none is a call of `f`. -/
theorem cached_mode_copies_whole_array (asize block_size use_tmpbuf : Int) (f : Kernel)
    (s : State) (fuel : Nat) (h0 : 0 ≤ asize) (h1 : asize < 2 ^ 60) (hbs : 1 ≤ block_size)
    (hbs2 : block_size < 2 ^ 63) (hfuel : (8 * asize / block_size).toNat < fuel) :
    ∃ s1, worker fuel asize ptr_a ptr_b ptr_c 1 block_size use_tmpbuf f s = some s1
      ∧ (∀ i, 0 ≤ i → i < 8 * asize → s1.mem BufId.b i = s.mem BufId.a i)
      ∧ (∀ i, s1.mem BufId.a i = s.mem BufId.a i)
      ∧ s1.calls = s.calls ++ cached_calls (8 * asize) block_size
      ∧ (block_calls block_size 0 0 (8 * asize / block_size).toNat).length
          = (8 * asize / block_size).toNat
      ∧ (∀ cl ∈ cached_calls (8 * asize) block_size,
          cl.isKernel = false ∧ Call.InBounds (sizes asize block_size) cl) := by
  obtain ⟨s1, e, ha, _, hb, _, hcalls⟩ :=
    worker_cached_spec asize block_size use_tmpbuf f s fuel h0 h1 hbs hbs2 hfuel
  refine ⟨s1, e, hb, ha, hcalls, by simp [block_calls], ?_⟩
  have hpos : (0 : Int) < block_size := by omega
  have hr0 : 0 ≤ 8 * asize % block_size := Int.emod_nonneg _ (by omega)
  have hq0 : 0 ≤ 8 * asize / block_size := Int.ediv_nonneg (by omega) (by omega)
  have hqc : (((8 * asize / block_size).toNat : Nat) : Int) = 8 * asize / block_size :=
    Int.toNat_of_nonneg hq0
  have hdecomp : 8 * asize = 8 * asize / block_size * block_size + 8 * asize % block_size := by
    have := Int.ediv_add_emod (8 * asize) block_size
    rw [mul_comm] at this
    exact this.symm
  have hd0 : 0 ≤ 8 * asize / block_size * block_size := mul_nonneg hq0 (by omega)
  intro cl hcl
  unfold cached_calls at hcl
  rw [List.mem_append] at hcl
  rcases hcl with hcl | hcl
  · obtain ⟨k, hk, rfl⟩ := block_calls_mem _ _ _ _ _ hcl
    have hk1 : ((k : Int) + 1) * block_size ≤ 8 * asize / block_size * block_size := by
      apply mul_le_mul_of_nonneg_right _ (by omega)
      rw [← hqc]
      exact_mod_cast hk
    have hk0 : (0 : Int) ≤ (k : Int) * block_size := mul_nonneg (Int.ofNat_nonneg k) (by omega)
    have hk2 : ((k : Int) + 1) * block_size = k * block_size + block_size := by ring
    refine ⟨rfl, ?_⟩
    simp only [Call.InBounds, InBounds, sizes, zero_add]
    omega
  · by_cases hz : 8 * asize % block_size = 0
    · simp [hz] at hcl
    · simp only [hz, if_false, List.mem_singleton] at hcl
      subst hcl
      refine ⟨rfl, ?_⟩
      simp only [Call.InBounds, InBounds, sizes]
      omega

/-- C1, at an array of one element and blocks of 3 bytes. -/
theorem cached_mode_copies_whole_array_witness :
    ∃ s1, worker 3 1 ptr_a ptr_b ptr_c 1 3 0 memcpy_wrapper s0 = some s1
      ∧ (∀ i, 0 ≤ i → i < 8 * 1 → s1.mem BufId.b i = s0.mem BufId.a i)
      ∧ (∀ i, s1.mem BufId.a i = s0.mem BufId.a i)
      ∧ s1.calls = s0.calls ++ cached_calls (8 * 1) 3
      ∧ (block_calls 3 0 0 (8 * 1 / 3 : Int).toNat).length = (8 * 1 / 3 : Int).toNat
      ∧ (∀ cl ∈ cached_calls (8 * 1) 3,
          cl.isKernel = false ∧ Call.InBounds (sizes 1 3) cl) :=
  cached_mode_copies_whole_array 1 3 0 memcpy_wrapper s0 3 (by decide) (by decide) (by decide)
    (by decide) (by decide)

/-- Where staged mode does agree with direct mode: for an array of less than
`2^31` bytes, a copy kernel `f` that honours the kernel contract and a block size
that is a positive multiple of 8 and divides the array size, `worker` with
`use_tmpbuf = 1` and `worker` with `use_tmpbuf = 0` (both `cached = 0`) return and
leave the same destination array, whose first `8*asize` bytes are those of the
source. -/
theorem staged_equals_direct_aligned_block (asize block_size : Int) (f : Kernel) (s : State)
    (fuel : Nat) (h0 : 0 ≤ asize) (h31 : 8 * asize < 2 ^ 31) (hbs : 0 < block_size)
    (h8 : 8 ∣ block_size) (hdvd : block_size ∣ 8 * asize)
    (hf : CopyKernel (sizes asize block_size) f)
    (hfuel : (8 * asize / block_size).toNat < fuel) :
    ∃ s1 s2, worker fuel asize ptr_a ptr_b ptr_c 0 block_size 1 f s = some s1
      ∧ worker fuel asize ptr_a ptr_b ptr_c 0 block_size 0 f s = some s2
      ∧ (∀ i, s1.mem BufId.b i = s2.mem BufId.b i)
      ∧ (∀ i, 0 ≤ i → i < 8 * asize → s1.mem BufId.b i = s.mem BufId.a i) := by
  obtain ⟨s1, e1, hb1, hb1'⟩ :=
    worker_staged_spec asize block_size f s fuel h0 h31 hbs h8 hdvd hf hfuel
  obtain ⟨s2, e2, hb2, hb2', _⟩ := worker_direct_spec asize block_size f s fuel h0 h31 hf
  refine ⟨s1, s2, e1, e2, ?_, hb1⟩
  intro i
  by_cases hi : 0 ≤ i ∧ i < 8 * asize
  · rw [hb1 i hi.1 hi.2, hb2 i hi.1 hi.2]
  · rw [hb1' i hi, hb2' i hi]

/-- Staged and direct mode at an array of two elements and blocks of 8 bytes. -/
theorem staged_equals_direct_aligned_block_witness :
    ∃ s1 s2, worker 3 2 ptr_a ptr_b ptr_c 0 8 1 memcpy_wrapper s0 = some s1
      ∧ worker 3 2 ptr_a ptr_b ptr_c 0 8 0 memcpy_wrapper s0 = some s2
      ∧ (∀ i, s1.mem BufId.b i = s2.mem BufId.b i)
      ∧ (∀ i, 0 ≤ i → i < 8 * 2 → s1.mem BufId.b i = s0.mem BufId.a i) :=
  staged_equals_direct_aligned_block 2 8 memcpy_wrapper s0 3 (by decide) (by decide) (by decide)
    (by decide) (by decide) (memcpy_wrapper_copy _) (by decide)

/-- C3, as stated, fails for the fill kernels: with an array of one element
(8 bytes), blocks of 8 bytes and a fill kernel writing the byte 0 (which meets
the fill contract), direct mode leaves 0 in byte 0 of the destination, while
cached mode, which never calls the kernel, leaves byte 0 of the source there,
which is 1. -/
theorem direct_differs_from_cached_fill_kernel :
    FillKernel (sizes 1 8) 0 (fill_with 0) ∧ (0 : Int) < 8 ∧ (8 : Int) ≤ 8 * 1
      ∧ (worker 3 1 ptr_a ptr_b ptr_c 0 8 0 (fill_with 0) s0).map (fun s => s.mem BufId.b 0)
          = some 0
      ∧ (worker 3 1 ptr_a ptr_b ptr_c 1 8 0 (fill_with 0) s0).map (fun s => s.mem BufId.b 0)
          = some 1 :=
  ⟨fill_with_fill _ _, by decide, by decide, by decide, by decide⟩

/-- C3, amended. For an array of less than `2^31` bytes, every source and
initial destination, every `block_size` with `0 < block_size <= 8*asize` and
every copy kernel that meets the kernel contract, run with `use_tmpbuf = 0`,
`worker` with `cached = 0` and `worker` with `cached = 1` return and leave
identical destination contents. -/
theorem direct_equals_cached_copy_kernel (asize block_size : Int) (f : Kernel) (s : State)
    (fuel : Nat) (h0 : 0 ≤ asize) (h31 : 8 * asize < 2 ^ 31) (hbs : 0 < block_size)
    (hle : block_size ≤ 8 * asize) (hf : CopyKernel (sizes asize block_size) f)
    (hfuel : (8 * asize / block_size).toNat < fuel) :
    ∃ s1 s2, worker fuel asize ptr_a ptr_b ptr_c 0 block_size 0 f s = some s1
      ∧ worker fuel asize ptr_a ptr_b ptr_c 1 block_size 0 f s = some s2
      ∧ (∀ i, s1.mem BufId.b i = s2.mem BufId.b i) := by
  obtain ⟨s1, e1, hb1, hb1', _⟩ := worker_direct_spec asize block_size f s fuel h0 h31 hf
  obtain ⟨s2, e2, _, _, hb2, hb2', _⟩ :=
    worker_cached_spec asize block_size 0 f s fuel h0 (by norm_num at h31 ⊢; omega) (by omega)
      (by norm_num at h31 ⊢; omega) hfuel
  refine ⟨s1, s2, e1, e2, ?_⟩
  intro i
  by_cases hi : 0 ≤ i ∧ i < 8 * asize
  · rw [hb1 i hi.1 hi.2, hb2 i hi.1 hi.2]
  · rw [hb1' i hi, hb2' i hi]

/-- C3 amended, at an array of two elements and blocks of 3 bytes. -/
theorem direct_equals_cached_copy_kernel_witness :
    ∃ s1 s2, worker 6 2 ptr_a ptr_b ptr_c 0 3 0 memcpy_wrapper s0 = some s1
      ∧ worker 6 2 ptr_a ptr_b ptr_c 1 3 0 memcpy_wrapper s0 = some s2
      ∧ (∀ i, s1.mem BufId.b i = s2.mem BufId.b i) :=
  direct_equals_cached_copy_kernel 2 3 memcpy_wrapper s0 6 (by decide) (by decide) (by decide)
    (by decide) (memcpy_wrapper_copy _) (by decide)

/-- C4, the code at a failing input. Run as `mbw -n 1 -t 13 2048`, `main`
accepts the configuration and invokes `worker` for `memcpy_wrapper` with
`asize = 268435456` elements (`array_bytes = 2^31`), the default block size and
`cached = 0`, `use_tmpbuf = 0`.  That invocation makes one kernel call, with
destination `b` and source `a`, but the byte count the kernel receives through
its `int` parameter is `-2147483648`, not `8*asize = 2147483648`. -/
theorem direct_mode_truncates_byte_count (f : Kernel) (s : State) (fuel : Nat)
    (clock : Int → Int → ℚ) :
    (∃ out, main 2 clock [Opt.n 1, Opt.t 13] (some 2048) = some out ∧ out.status = 0
        ∧ Event.worker 268435456 0 262144 0 KernelName.memcpy_wrapper ∈ out.events)
      ∧ (worker fuel 268435456 ptr_a ptr_b ptr_c 0 262144 0 f s).map (fun s1 => s1.calls)
          = some (s.calls ++ [Call.kernel ptr_b ptr_a (-2147483648)])
      ∧ (8 * 268435456 : Int) = 2147483648 := by
  refine ⟨⟨_, rfl, rfl, by simp [Settings.init]⟩, ?_, by decide⟩
  simp [worker, call_kernel, to_int, to_int64]

/-- C10, the code at a failing input. Run as `mbw -b 786432 -n 1 -t 6 1`,
`main` accepts the configuration (`block_size <= array_bytes = 1048576`) and
invokes `worker` with `asize = 131072`, `block_size = 786432` and
`use_tmpbuf = 1`.  That invocation makes four kernel calls; the third reads the
source range `[786432, 1572864)` and the fourth writes the same range of the
destination, both beyond the 1048576 bytes of the arrays. -/
theorem staged_mode_overruns_arrays (f : Kernel) (s : State) (clock : Int → Int → ℚ) :
    (∃ out, main 2 clock [Opt.b 786432, Opt.n 1, Opt.t 6] (some 1) = some out ∧ out.status = 0
        ∧ Event.worker 131072 0 786432 1 KernelName.aligned_block_copy ∈ out.events)
      ∧ (worker 3 131072 ptr_a ptr_b ptr_c 0 786432 1 f s).map (fun s1 => s1.calls)
          = some (s.calls ++
              [Call.kernel ptr_c ⟨BufId.a, 0⟩ 786432, Call.kernel ⟨BufId.b, 0⟩ ptr_c 786432,
               Call.kernel ptr_c ⟨BufId.a, 786432⟩ 786432,
               Call.kernel ⟨BufId.b, 786432⟩ ptr_c 786432])
      ∧ ¬ Call.InBounds (sizes 131072 786432) (Call.kernel ptr_c ⟨BufId.a, 786432⟩ 786432)
      ∧ ¬ Call.InBounds (sizes 131072 786432) (Call.kernel ⟨BufId.b, 786432⟩ ptr_c 786432) := by
  refine ⟨⟨_, rfl, rfl, by simp [Settings.init, to_int64]⟩, ?_, by decide, by decide⟩
  simp [worker, staged_loop, call_kernel, to_int, to_int64, Ptr.add64, ptr_a, ptr_b, ptr_c,
    Int.tdiv]

/-! ## Rounding to `double`, evaluated -/

/-- The rounding of a positive fraction in lowest terms, from its significand
and exponent. -/
theorem round_double_eval (a b m : Nat) (e : Int) (ha : 0 < a) (hb : 0 < b)
    (hc : Nat.Coprime a b) (hm : double_significand a b = m) (he : double_exponent a b = e) :
    round_double ((a : ℚ) / (b : ℚ)) = (m : ℚ) * (2 : ℚ) ^ e := by
  have hpos : (0 : ℚ) < (a : ℚ) / (b : ℚ) := by positivity
  have hnum : ((a : ℚ) / (b : ℚ)).num = a := by
    have := Rat.num_div_eq_of_coprime (a := (a : Int)) (b := (b : Int)) (by exact_mod_cast hb)
      (by simpa using hc)
    simpa using this
  have hden : ((a : ℚ) / (b : ℚ)).den = b := by
    have := Rat.den_div_eq_of_coprime (a := (a : Int)) (b := (b : Int)) (by exact_mod_cast hb)
      (by simpa using hc)
    simpa using this
  unfold round_double
  rw [if_neg (ne_of_gt hpos), hnum, hden]
  simp only [Int.natAbs_ofNat, hm, he]
  rw [if_neg (not_lt.mpr (le_of_lt hpos))]

theorem round_double_of_eq (x r : ℚ) (a b m : Nat) (e : Int) (hx : x = (a : ℚ) / (b : ℚ))
    (ha : 0 < a) (hb : 0 < b) (hc : Nat.Coprime a b) (hm : double_significand a b = m)
    (he : double_exponent a b = e) (hr : (m : ℚ) * (2 : ℚ) ^ e = r) : round_double x = r := by
  rw [hx, round_double_eval a b m e ha hb hc hm he, hr]

theorem seven_microseconds_double : round_double seven_microseconds = seven_microseconds :=
  round_double_of_eq _ _ 8264141345021879 1180591620717411303424 8264141345021879 (-70)
    (by norm_num [seven_microseconds]) (by decide) (by decide) (by decide) (by decide) (by decide)
    (by norm_num [seven_microseconds])

theorem seven_microseconds_quotient : ddiv 7 1000000 = seven_microseconds :=
  round_double_of_eq _ _ 7 1000000 8264141345021879 (-70)
    (by norm_num) (by decide) (by decide) (by decide) (by decide) (by decide)
    (by norm_num [seven_microseconds])

theorem seven_microseconds_sum1 : dadd 0 seven_microseconds = seven_microseconds := by
  unfold dadd
  rw [zero_add]
  exact seven_microseconds_double

theorem seven_microseconds_sum2 :
    dadd seven_microseconds seven_microseconds = 8264141345021879 / 590295810358705651712 :=
  round_double_of_eq _ _ 8264141345021879 590295810358705651712 8264141345021879 (-69)
    (by norm_num [seven_microseconds]) (by decide) (by decide) (by decide) (by decide) (by decide)
    (by norm_num)

theorem seven_microseconds_sum3 :
    dadd (8264141345021879 / 590295810358705651712) seven_microseconds
      = 6198106008766409 / 295147905179352825856 :=
  round_double_of_eq _ _ 24792424035065637 1180591620717411303424 6198106008766409 (-68)
    (by norm_num [seven_microseconds]) (by decide) (by decide) (by decide) (by decide) (by decide)
    (by norm_num)

theorem seven_microseconds_sum4 :
    dadd (6198106008766409 / 295147905179352825856) seven_microseconds
      = 8264141345021879 / 295147905179352825856 :=
  round_double_of_eq _ _ 33056565380087515 1180591620717411303424 8264141345021879 (-68)
    (by norm_num [seven_microseconds]) (by decide) (by decide) (by decide) (by decide) (by decide)
    (by norm_num)

theorem seven_microseconds_sum5 :
    dadd (8264141345021879 / 295147905179352825856) seven_microseconds
      = 2582544170319337 / 73786976294838206464 :=
  round_double_of_eq _ _ 41320706725109395 1180591620717411303424 5165088340638674 (-67)
    (by norm_num [seven_microseconds]) (by decide) (by decide) (by decide) (by decide) (by decide)
    (by norm_num)

theorem seven_microseconds_average :
    ddiv (2582544170319337 / 73786976294838206464) 5
      = 4132070672510939 / 590295810358705651712 :=
  round_double_of_eq _ _ 2582544170319337 368934881474191032320 8264141345021878 (-70)
    (by norm_num) (by decide) (by decide) (by decide) (by decide) (by decide)
    (by norm_num)

/-- The multiples of a quarter up to five quarters are `double` values. -/
theorem quarters_exact (k : Nat) (h1 : 1 ≤ k) (h5 : k ≤ 5) :
    round_double ((k : ℚ) * (1 / 4)) = (k : ℚ) * (1 / 4) := by
  interval_cases k
  · exact round_double_of_eq _ _ 1 4 4503599627370496 (-54) (by norm_num) (by decide)
      (by decide) (by decide) (by decide) (by decide) (by norm_num)
  · exact round_double_of_eq _ _ 1 2 4503599627370496 (-53) (by norm_num) (by decide)
      (by decide) (by decide) (by decide) (by decide) (by norm_num)
  · exact round_double_of_eq _ _ 3 4 6755399441055744 (-53) (by norm_num) (by decide)
      (by decide) (by decide) (by decide) (by decide) (by norm_num)
  · exact round_double_of_eq _ _ 1 1 4503599627370496 (-52) (by norm_num) (by decide)
      (by decide) (by decide) (by decide) (by decide) (by norm_num)
  · exact round_double_of_eq _ _ 5 4 5629499534213120 (-52) (by norm_num) (by decide)
      (by decide) (by decide) (by decide) (by decide) (by norm_num)

/-! ## The run loop -/

/-- The loop over the runs of one test, with `k` runs left to do: it returns,
having invoked `worker` `k` times and added the `k` elapsed times to `te_sum`,
one after the other. -/
theorem run_loop_spec (clock : Int → ℚ) (n : Nat) (call : Event) :
    ∀ (k fuel : Nat) (i : Int) (te_sum : ℚ), k < fuel → 1 ≤ n → i + k = n →
      run_loop clock n call fuel i te_sum
        = some (acc_clock clock k i te_sum, List.replicate k call) := by
  intro k
  induction k with
  | zero =>
    intro fuel i te_sum hfuel hn hi
    obtain ⟨fuel, rfl⟩ : ∃ j, fuel = j + 1 := ⟨fuel - 1, by omega⟩
    simp only [Nat.cast_zero, add_zero] at hi
    simp only [run_loop, acc_clock, List.replicate]
    rw [if_neg (by omega)]
  | succ k ih =>
    intro fuel i te_sum hfuel hn hi
    obtain ⟨fuel, rfl⟩ : ∃ j, fuel = j + 1 := ⟨fuel - 1, by omega⟩
    push_cast at hi
    simp only [run_loop, acc_clock, List.replicate]
    rw [if_pos (Or.inr (by omega)), ih fuel (i + 1) (dadd te_sum (clock i)) (by omega) hn (by omega)]

/-- The accumulator over `k` runs that all take `E`, started at `j * E`, when
the multiples of `E` it passes through are `double` values: no addition rounds. -/
theorem acc_clock_const (clock : Int → ℚ) (E : ℚ) (n : Nat)
    (hexact : ∀ k : Nat, 1 ≤ k → k ≤ n → round_double ((k : ℚ) * E) = (k : ℚ) * E) :
    ∀ (k j : Nat) (i : Int), j + k ≤ n → (∀ l : Int, i ≤ l → l < i + k → clock l = E) →
      acc_clock clock k i ((j : ℚ) * E) = ((j + k : Nat) : ℚ) * E := by
  intro k
  induction k with
  | zero => intro j i _ _; simp [acc_clock]
  | succ k ih =>
    intro j i hjk h
    simp only [acc_clock]
    rw [h i (le_refl i) (by push_cast; omega)]
    have hstep : dadd ((j : ℚ) * E) E = ((j + 1 : Nat) : ℚ) * E := by
      unfold dadd
      have e : (j : ℚ) * E + E = ((j + 1 : Nat) : ℚ) * E := by push_cast; ring
      rw [e]
      exact hexact (j + 1) (by omega) (by omega)
    rw [hstep, ih (j + 1) (i + 1) (by omega) (fun l h1 h2 => h l (by omega) (by push_cast; omega))]
    congr 2
    omega

/-- One entry of the registry that is selected, with `n >= 1` runs and the
averaged line shown. -/
theorem run_tests_cons_selected (fuel : Nat) (clock : Int → Int → ℚ) (st : Settings) (mt : ℚ)
    (asize : Int) (bi : bench_info) (rest : List bench_info) (testno : Int) (n : Nat)
    (hn : 1 ≤ n) (hnl : st.nr_loops = n) (havg : st.showavg ≠ 0)
    (hsel : st.runid < 0 ∨ st.runid = testno) (hfuel : n < fuel) :
    run_tests fuel clock st mt asize (bi :: rest) testno
      = (run_tests fuel clock st mt asize rest (testno + 1)).map (fun evs =>
          List.replicate n (Event.worker asize st.cached st.block_size bi.use_tmpbuf bi.f)
            ++ [Event.printf "AVG" [],
                Event.printout
                  (printout (ddiv (acc_clock (clock testno) n 0 0) n) mt testno bi.description)]
            ++ evs) := by
  simp only [run_tests]
  rw [if_pos hsel, hnl, run_loop_spec (clock testno) n _ n fuel 0 0 hfuel hn (by simp)]
  simp [havg]

/-- C5. A block size larger than the array is rejected before any buffer
exists: for an array size `mt >= 1` in MiB (below `2^43`, so that the array
size in bytes fits `int64_t`) and every block size, lines 255-307 of `main` end
with status 1 having printed only the error message, with no `make_array` and
no `worker` call, if and only if `block_size > mt * 1048576`; when
`block_size <= mt * 1048576` the three `make_array` calls are made and the run
loop is entered, its output being followed by the three `free` calls with
status 0. -/
theorem block_size_check (fuel : Nat) (clock : Int → Int → ℚ) (st : Settings) (mt : Nat)
    (hmt : 1 ≤ mt) (hmt2 : mt < 2 ^ 43) :
    (main_run fuel clock st mt
        = some ⟨1, [Event.printf "Error: array size larger than block size (%llu bytes)!"
                      [st.block_size]]⟩
      ↔ st.block_size > (mt : Int) * 1048576)
    ∧ (st.block_size ≤ (mt : Int) * 1048576 →
        ∃ pre mid, main_run fuel clock st mt
          = (run_tests fuel clock st mt (131072 * mt) c_benchmarks 0).map (fun evs =>
              ⟨0, pre ++ [Event.make_array (131072 * mt), Event.make_array (131072 * mt),
                          Event.make_array st.block_size] ++ mid ++ evs
                    ++ [Event.free BufId.a, Event.free BufId.b, Event.free BufId.c]⟩)) := by
  have hmt0 : ¬ (0 ≥ mt) := by omega
  have hasize : (1024 * 1024 / 8 * (mt : Int)) = 131072 * mt := by norm_num
  have hbytes : to_int64 (131072 * (mt : Int) * 8) = (mt : Int) * 1048576 := by
    rw [to_int64_eq _ (by omega) (by norm_num at hmt2 ⊢; omega)]
    ring
  have hproceed : st.block_size ≤ (mt : Int) * 1048576 →
      ∃ pre mid, main_run fuel clock st mt
          = (run_tests fuel clock st mt (131072 * mt) c_benchmarks 0).map (fun evs =>
              ⟨0, pre ++ [Event.make_array (131072 * mt), Event.make_array (131072 * mt),
                          Event.make_array st.block_size] ++ mid ++ evs
                    ++ [Event.free BufId.a, Event.free BufId.b, Event.free BufId.c]⟩) := by
    intro hle
    refine ⟨if st.quiet = 0 then
          [Event.printf "int64_t uses %d bytes. " [8],
           Event.printf "Allocating 2*%lld elements = %lld bytes of memory."
             [131072 * mt, 2 * (131072 * mt) * 8],
           Event.printf "Using %lld bytes as blocks for memcpy block copy test." [st.block_size]]
        else [],
      (if st.quiet = 0 then
          [Event.printf "Getting down to business... Doing %d runs per test." [st.nr_loops]]
        else []) ++ [Event.printf "runid :%d" [st.runid]], ?_⟩
    simp only [main_run]
    rw [if_neg hmt0, hasize, hbytes, if_neg (by omega)]
    cases run_tests fuel clock st (↑mt) (131072 * ↑mt) c_benchmarks 0 with
    | none => rfl
    | some evs =>
      simp only [Option.map_some', List.append_assoc]
  refine ⟨⟨?_, ?_⟩, hproceed⟩
  · intro h
    by_contra hle
    obtain ⟨pre, mid, e⟩ := hproceed (by omega)
    rw [e] at h
    cases hrun : run_tests fuel clock st (↑mt) (131072 * ↑mt) c_benchmarks 0 with
    | none => rw [hrun] at h; simp at h
    | some evs => rw [hrun] at h; simp at h
  · intro hgt
    simp only [main_run]
    rw [if_neg hmt0, hasize, hbytes, if_pos (by omega)]

/-- C5, at an array of 1 MiB: with a block size of 2 MiB the run is rejected,
with the default block size it proceeds. -/
theorem block_size_check_witness :
    main_run 11 (fun _ _ => 1) ⟨10, 2097152, 1, -1, 0, 0⟩ 1
        = some ⟨1, [Event.printf "Error: array size larger than block size (%llu bytes)!"
                      [2097152]]⟩
    ∧ ∃ pre mid, main_run 11 (fun _ _ => 1) Settings.init 1
          = (run_tests 11 (fun _ _ => 1) Settings.init (1 : Nat) (131072 * (1 : Nat)) c_benchmarks 0).map
              (fun evs =>
              ⟨0, pre ++ [Event.make_array (131072 * (1 : Nat)), Event.make_array (131072 * (1 : Nat)),
                          Event.make_array Settings.init.block_size] ++ mid ++ evs
                    ++ [Event.free BufId.a, Event.free BufId.b, Event.free BufId.c]⟩) :=
  ⟨(block_size_check 11 (fun _ _ => 1) ⟨10, 2097152, 1, -1, 0, 0⟩ 1 (by decide) (by decide)).1.mpr
      (by decide),
   (block_size_check 11 (fun _ _ => 1) Settings.init 1 (by decide) (by decide)).2 (by decide)⟩

/-- C6, the code at a failing input. With `-t 20` and an array size of 1 MiB,
`main` does not reject the selection: it prints the startup lines, makes the
three `make_array` calls, runs the loop over the registry, in which no entry
is selected, frees the arrays and returns status 0. -/
theorem out_of_range_selection_not_rejected (fuel : Nat) (clock : Int → Int → ℚ) :
    main fuel clock [Opt.t 20] (some 1) =
      some ⟨0, [Event.printf "int64_t uses %d bytes. " [8],
        Event.printf "Allocating 2*%lld elements = %lld bytes of memory." [131072, 2097152],
        Event.printf "Using %lld bytes as blocks for memcpy block copy test." [262144],
        Event.make_array 131072, Event.make_array 131072, Event.make_array 262144,
        Event.printf "Getting down to business... Doing %d runs per test." [10],
        Event.printf "runid :%d" [20],
        Event.free BufId.a, Event.free BufId.b, Event.free BufId.c]⟩ := by
  rfl

/-- C8, as stated, fails: `te`, `te_sum` and the quotient are `double`. With
`mbw -n 5 -t 0 1` and every `worker` invocation returning the `double`
`7.0/1000000` (7 microseconds), the five additions leave
`te_sum = 0x1.2599ed7c6fbd2p-15`, the third and the fifth having rounded, and
`printout` receives `te_sum/5 = 0x1.d5c31593e5fb6p-18`, one unit in the last
place below the `E = 0x1.d5c31593e5fb7p-18` that each invocation returned. -/
theorem average_of_constant_sample_rounds :
    ddiv 7 1000000 = seven_microseconds
    ∧ run_loop (fun _ => seven_microseconds) 5
        (Event.worker 131072 0 262144 0 KernelName.aligned_block_copy_backwards) 6 0 0
      = some (2582544170319337 / 73786976294838206464,
          List.replicate 5 (Event.worker 131072 0 262144 0 KernelName.aligned_block_copy_backwards))
    ∧ run_tests 6 (fun _ _ => seven_microseconds) ⟨5, 262144, 1, 0, 0, 0⟩ 1 131072 c_benchmarks 0
      = some (List.replicate 5 (Event.worker 131072 0 262144 0 KernelName.aligned_block_copy_backwards)
          ++ [Event.printf "AVG" [],
              Event.printout (printout (4132070672510939 / 590295810358705651712) 1 0
                "C copy backwards")])
    ∧ (4132070672510939 / 590295810358705651712 : ℚ) ≠ seven_microseconds := by
  have hacc : acc_clock (fun _ => seven_microseconds) 5 0 0
      = 2582544170319337 / 73786976294838206464 := by
    simp only [acc_clock]
    rw [seven_microseconds_sum1, seven_microseconds_sum2, seven_microseconds_sum3,
      seven_microseconds_sum4, seven_microseconds_sum5]
  refine ⟨seven_microseconds_quotient, ?_, ?_, by norm_num [seven_microseconds]⟩
  · have h := run_loop_spec (fun _ => seven_microseconds) 5
      (Event.worker 131072 0 262144 0 KernelName.aligned_block_copy_backwards) 5 6 0 0
      (by decide) (by decide) (by decide)
    rw [hacc] at h
    exact h
  · unfold c_benchmarks
    rw [run_tests_cons_selected 6 (fun _ _ => seven_microseconds) ⟨5, 262144, 1, 0, 0, 0⟩ 1 131072
      _ _ 0 5 (by decide) (by decide) (by decide) (by decide) (by decide), hacc]
    have h5 : ((5 : Nat) : ℚ) = 5 := by norm_num
    rw [h5, seven_microseconds_average]
    rfl

/-- C8, amended. For `nr_loops = n >= 1`, a selected test `testno` with the
averaged line shown, and every `worker` invocation for it returning the elapsed
time `E`: the loop over the runs starts at `i = 0` with `te_sum = 0` and
invokes `worker` exactly `n` times; when the multiples `E, 2E, ..., nE` are all
`double` values, so that no addition rounds, it ends with `te_sum = n * E`, the
`double` quotient `te_sum / nr_loops` is `E`, and that `E` is the elapsed time
passed to `printout` for the test. -/
theorem constant_sample_average (fuel : Nat) (clock : Int → Int → ℚ) (st : Settings) (mt : ℚ)
    (asize : Int) (bi : bench_info) (rest : List bench_info) (testno : Int) (n : Nat) (E : ℚ)
    (hn : 1 ≤ n) (hnl : st.nr_loops = n) (havg : st.showavg ≠ 0)
    (hsel : st.runid < 0 ∨ st.runid = testno) (hfuel : n < fuel)
    (hE : ∀ i : Int, 0 ≤ i → i < n → clock testno i = E)
    (hexact : ∀ k : Nat, 1 ≤ k → k ≤ n → round_double ((k : ℚ) * E) = (k : ℚ) * E) :
    run_loop (clock testno) st.nr_loops
        (Event.worker asize st.cached st.block_size bi.use_tmpbuf bi.f) fuel 0 0
      = some ((n : ℚ) * E,
          List.replicate n (Event.worker asize st.cached st.block_size bi.use_tmpbuf bi.f))
    ∧ ddiv ((n : ℚ) * E) (st.nr_loops : ℚ) = E
    ∧ run_tests fuel clock st mt asize (bi :: rest) testno
      = (run_tests fuel clock st mt asize rest (testno + 1)).map (fun evs =>
          List.replicate n (Event.worker asize st.cached st.block_size bi.use_tmpbuf bi.f)
            ++ [Event.printf "AVG" [], Event.printout (printout E mt testno bi.description)]
            ++ evs) := by
  have hsum : acc_clock (clock testno) n 0 0 = n * E := by
    have h := acc_clock_const (clock testno) E n hexact n 0 0 (by omega)
      (fun l h1 h2 => hE l h1 (by omega))
    simpa using h
  have hn0 : (n : ℚ) ≠ 0 := by
    have : (0 : ℚ) < n := by exact_mod_cast hn
    exact ne_of_gt this
  have hdiv : ddiv ((n : ℚ) * E) (n : ℚ) = E := by
    unfold ddiv
    have e : (n : ℚ) * E / (n : ℚ) = ((1 : Nat) : ℚ) * E := by field_simp
    rw [e, hexact 1 (le_refl 1) hn]
    simp
  refine ⟨?_, ?_, ?_⟩
  · rw [hnl, run_loop_spec (clock testno) n _ n fuel 0 0 hfuel hn (by simp), hsum]
  · rw [hnl]
    exact_mod_cast hdiv
  · rw [run_tests_cons_selected fuel clock st mt asize bi rest testno n hn hnl havg hsel hfuel,
      hsum, hdiv]

/-- C8 amended, at five runs of the first kernel, each taking a quarter of a
second. -/
theorem constant_sample_average_witness :
    run_loop ((fun _ _ => 1 / 4 : Int → Int → ℚ) 0) (⟨5, 262144, 1, -1, 0, 0⟩ : Settings).nr_loops
        (Event.worker 131072 0 262144 0 KernelName.aligned_block_copy_backwards) 6 0 0
      = some (((5 : Nat) : ℚ) * (1 / 4),
          List.replicate 5 (Event.worker 131072 0 262144 0 KernelName.aligned_block_copy_backwards))
    ∧ ddiv (((5 : Nat) : ℚ) * (1 / 4)) (((⟨5, 262144, 1, -1, 0, 0⟩ : Settings).nr_loops : Int) : ℚ)
        = 1 / 4
    ∧ run_tests 6 (fun _ _ => 1 / 4) ⟨5, 262144, 1, -1, 0, 0⟩ 1 131072
        (⟨"C copy backwards", 0, KernelName.aligned_block_copy_backwards⟩ :: []) 0
      = (run_tests 6 (fun _ _ => 1 / 4) ⟨5, 262144, 1, -1, 0, 0⟩ 1 131072 [] (0 + 1)).map (fun evs =>
          List.replicate 5 (Event.worker 131072 0 262144 0 KernelName.aligned_block_copy_backwards)
            ++ [Event.printf "AVG" [], Event.printout (printout (1 / 4) 1 0 "C copy backwards")]
            ++ evs) :=
  constant_sample_average 6 (fun _ _ => 1 / 4) ⟨5, 262144, 1, -1, 0, 0⟩ 1 131072
    ⟨"C copy backwards", 0, KernelName.aligned_block_copy_backwards⟩ [] 0 5 (1 / 4)
    (by decide) (by decide) (by decide) (by decide) (by decide) (fun _ _ _ => rfl)
    quarters_exact

end Mbw
